import Mathlib

/-!
Shallow embedding of the TODO CLI task manager (src/CPPCLITODO.cpp).

Text is modelled as `List Char` (the file format and the line/field
splitting are character-level, which a `List Char` model captures
exactly).  C++ `int` is modelled as `Int`; `std::stoi`'s range check is
made explicit with the 32-bit bounds.  Fallible operations (a load that
would throw an uncaught exception and kill the process) return `Option`.
-/

namespace CPPCLITODO

/-- Text is a list of characters. -/
abbrev Str := List Char

/-- One task record: `class Task` of the source, with its three data
members `id`, `description`, `completed`.  The static member `nextId`
is threaded separately as explicit state. -/
structure Task where
  id : Int
  description : Str
  completed : Bool
deriving DecidableEq

/-- `INT_MIN` for the 32-bit `int` of the source. -/
def intMin : Int := -(2 ^ 31)

/-- `INT_MAX` for the 32-bit `int` of the source. -/
def intMax : Int := 2 ^ 31 - 1

/-- C `isspace` on the default locale: space and the characters 9..13. -/
def cppIsSpace (c : Char) : Bool := c.toNat = 32 || (9 ≤ c.toNat && c.toNat ≤ 13)

/-- C `isdigit`: the characters `'0'`..`'9'` (codes 48..57). -/
def isDigitChar (c : Char) : Bool := 48 ≤ c.toNat && c.toNat ≤ 57

/-- Numeric value of a run of digit characters, most significant first
(the accumulation loop inside `std::stoi` / `strtol`). -/
def digitsToNat (ds : Str) : Nat := ds.foldl (fun a c => 10 * a + (c.toNat - 48)) 0

/-- The sign factor `std::stoi` applies after the optional leading sign
character (once whitespace has been skipped). -/
def stoiSign (s1 : Str) : Int := if s1.head? = some '-' then -1 else 1

/-- The run of digits `std::stoi` consumes after skipping whitespace and
an optional single sign character. -/
def stoiDigits (s1 : Str) : Str :=
  (if s1.head? = some '-' ∨ s1.head? = some '+' then s1.tail else s1).takeWhile isDigitChar

/-- The conversion step of `std::stoi` after whitespace was skipped. -/
def stoiParse (s1 : Str) : Option Int :=
  if stoiDigits s1 = [] then none
  else if stoiSign s1 * (digitsToNat (stoiDigits s1) : Int) < intMin ∨
      intMax < stoiSign s1 * (digitsToNat (stoiDigits s1) : Int) then none
  else some (stoiSign s1 * (digitsToNat (stoiDigits s1) : Int))

/-- `std::stoi`: skip leading whitespace, an optional single sign, then a
nonempty run of decimal digits.  Returns `none` where the C++ call throws
(`std::invalid_argument` when no digits are found, `std::out_of_range`
when the value does not fit in `int`). -/
def stoi (s : Str) : Option Int := stoiParse (s.dropWhile cppIsSpace)

/-- Decimal digits of a natural number, most significant first, with
explicit fuel (the fuel `n + 1` used by `natToChars` always suffices). -/
def natToCharsAux : Nat → Nat → Str
  | 0, _ => []
  | fuel + 1, n =>
    if n < 10 then [Nat.digitChar n]
    else natToCharsAux fuel (n / 10) ++ [Nat.digitChar (n % 10)]

/-- Decimal digits of a natural number, most significant first. -/
def natToChars (n : Nat) : Str := natToCharsAux (n + 1) n

/-- The characters `operator<<` writes for an `int` value. -/
def intToChars (i : Int) : Str :=
  if i < 0 then '-' :: natToChars (-i).toNat else natToChars i.toNat

/-- Split a character stream at the first occurrence of `d`: the part
before `d` and the part after it (the whole stream and `[]` when `d`
does not occur). -/
def splitFirst (d : Char) : Str → Str × Str
  | [] => ([], [])
  | c :: cs =>
    if c = d then ([], cs)
    else ((splitFirst d cs).1.cons c, (splitFirst d cs).2)

/-- `std::getline(stream, out, d)` on a string stream holding `s`: fails
(returns `none`) exactly when the stream is already at end-of-file;
otherwise extracts up to and including the first `d` (or to end-of-file)
and leaves the rest of the stream. -/
def getlineDelim (s : Str) (d : Char) : Option (Str × Str) :=
  match s with
  | [] => none
  | _ :: _ => some (splitFirst d s)

/-- The three `std::getline` calls of `loadTasksFromFile` on one line:
id field up to the first `'|'`, description up to the next `'|'`, and
the rest of the line as the completed field.  `none` when any of the
three extractions fails, in which case the line is skipped. -/
def parseTaskLine (line : Str) : Option (Str × Str × Str) :=
  match getlineDelim line '|' with
  | none => none
  | some (idStr, rest1) =>
    match getlineDelim rest1 '|' with
    | none => none
    | some (desc, rest2) =>
      match getlineDelim rest2 '\n' with
      | none => none
      | some (completedStr, _) => some (idStr, desc, completedStr)

/-- The lines `while (std::getline(file, line))` reads from a file whose
contents are `s`: split at each `'\n'`; a final fragment without a
trailing newline is still a line; a trailing newline does not produce an
extra empty line. -/
def linesOf : Str → List Str
  | [] => []
  | c :: cs =>
    if c = '\n' then [] :: linesOf cs
    else
      match linesOf cs with
      | [] => [[c]]
      | l :: ls => (c :: l) :: ls

/-- Processing of one input line by `loadTasksFromFile`.  State is the
task vector plus `Task::nextId`.  A malformed line (fewer than three
fields) is skipped.  On a parsed line, `std::stoi` may throw — an
uncaught exception that terminates the process, modelled as `none`.
Otherwise: the `Task task(desc)` constructor increments `nextId` (even
though `setId` then overwrites the allocated id), `setCompleted` stores
whether the third field is exactly `"1"`, and the final
`if (id >= Task::getNextId()) Task::setNextId(id + 1)` runs against the
already incremented counter. -/
def loadLine (st : List Task × Int) (line : Str) : Option (List Task × Int) :=
  match parseTaskLine line with
  | none => some st
  | some (idStr, desc, completedStr) =>
    match stoi idStr with
    | none => none
    | some id =>
      let nextId1 := st.2 + 1
      let task : Task := ⟨id, desc, completedStr == ['1']⟩
      some (st.1 ++ [task], if id ≥ nextId1 then id + 1 else nextId1)

/-- The read loop of `loadTasksFromFile` over the list of lines. -/
def loadLines (st : List Task × Int) : List Str → Option (List Task × Int)
  | [] => some st
  | l :: ls =>
    match loadLine st l with
    | none => none
    | some st2 => loadLines st2 ls

/-- `loadTasksFromFile`: `file` is `none` when `tasks.txt` cannot be
opened, in which case the function returns at once with the state
unchanged.  Result `none` models the process dying on an uncaught
`std::stoi` exception. -/
def loadTasksFromFile (tasks : List Task) (nextId : Int) (file : Option Str) :
    Option (List Task × Int) :=
  match file with
  | none => some (tasks, nextId)
  | some contents => loadLines (tasks, nextId) (linesOf contents)

/-- The characters one task contributes to a line of `tasks.txt` (before
the terminating newline): `id << "|" << description << "|" << completed`. -/
def taskRecordChars (t : Task) : Str :=
  intToChars t.id ++ '|' :: t.description ++ '|' :: (if t.completed then ['1'] else ['0'])

/-- `saveTasksToFile`: every task in vector order, each followed by `"\n"`. -/
def saveTasksToFile (tasks : List Task) : Str :=
  (tasks.map (fun t => taskRecordChars t ++ ['\n'])).flatten

/-- `addTask`: construct `Task(description)` — id `nextId`, counter
incremented, `completed = false` — and push it onto the vector.  Returns
the new vector, the new counter, and the created record. -/
def addTask (tasks : List Task) (nextId : Int) (description : Str) :
    List Task × Int × Task :=
  (tasks ++ [⟨nextId, description, false⟩], nextId + 1, ⟨nextId, description, false⟩)

/-- `toggleTaskComplete` at a given id: flip `completed` on the first
record with that id.  The `Bool` is true exactly when a record was found,
which is also exactly when the function calls `saveTasksToFile` (on an
empty vector or an absent id it returns without saving). -/
def toggleTaskComplete : List Task → Int → List Task × Bool
  | [], _ => ([], false)
  | t :: rest, i =>
    if t.id = i then ({ t with completed := !t.completed } :: rest, true)
    else ((toggleTaskComplete rest i).1.cons t, (toggleTaskComplete rest i).2)

/-- `deleteTask` at a given id: erase the first record with that id.
The `Bool` is true exactly when a record was found and erased, which is
also exactly when `saveTasksToFile` is called. -/
def deleteTask : List Task → Int → List Task × Bool
  | [], _ => ([], false)
  | t :: rest, i =>
    if t.id = i then (rest, true)
    else ((deleteTask rest i).1.cons t, (deleteTask rest i).2)

/-- `editTask` at a given id with the new description: `setDescription`
on the first record with that id.  The `Bool` is true exactly when a
record was found, which is also exactly when `saveTasksToFile` is called. -/
def editTask : List Task → Int → Str → List Task × Bool
  | [], _, _ => ([], false)
  | t :: rest, i, d =>
    if t.id = i then ({ t with description := d } :: rest, true)
    else ((editTask rest i d).1.cons t, (editTask rest i d).2)

/-- A run of successive `addTask` calls; returns the final vector and
counter together with the list of records the calls returned. -/
def addTaskRun : List Task → Int → List Str → List Task × Int × List Task
  | tasks, n, [] => (tasks, n, [])
  | tasks, n, d :: ds =>
    (((addTaskRun (tasks ++ [⟨n, d, false⟩]) (n + 1) ds).1,
      (addTaskRun (tasks ++ [⟨n, d, false⟩]) (n + 1) ds).2.1,
      ⟨n, d, false⟩ :: (addTaskRun (tasks ++ [⟨n, d, false⟩]) (n + 1) ds).2.2))

/-- One mutating menu command of the interactive loop. -/
inductive Op where
  | create (d : Str)
  | toggle (i : Int)
  | remove (i : Int)
  | edit (i : Int) (d : Str)
deriving DecidableEq

/-- Apply one menu command to the store state (vector, `Task::nextId`).
Only `addTask` touches the counter. -/
def applyOp (st : List Task × Int) : Op → List Task × Int
  | .create d => ((addTask st.1 st.2 d).1, (addTask st.1 st.2 d).2.1)
  | .toggle i => ((toggleTaskComplete st.1 i).1, st.2)
  | .remove i => ((deleteTask st.1 i).1, st.2)
  | .edit i d => ((editTask st.1 i d).1, st.2)

/-- Apply a whole sequence of menu commands. -/
def applyOps (st : List Task × Int) : List Op → List Task × Int
  | [] => st
  | o :: os => applyOps (applyOp st o) os

/-- The ids of the records in vector order. -/
def idsOf (tasks : List Task) : List Int := tasks.map Task.id

/-- A line on which `loadTasksFromFile` does not hit a throwing
`std::stoi`: it is either skipped or its id field parses. -/
def lineLoadsSafely (l : Str) : Bool :=
  match parseTaskLine l with
  | none => true
  | some (idStr, _, _) => (stoi idStr).isSome

/-! ### Digit characters and decimal printing/parsing -/

theorem digitChar_toNat {d : Nat} (h : d < 10) : (Nat.digitChar d).toNat = 48 + d := by
  interval_cases d <;> rfl

theorem isDigitChar_digitChar {d : Nat} (h : d < 10) : isDigitChar (Nat.digitChar d) = true := by
  interval_cases d <;> rfl

theorem mem_natToCharsAux {f n : Nat} {c : Char} (hc : c ∈ natToCharsAux f n) :
    ∃ d, d < 10 ∧ c = Nat.digitChar d := by
  induction f generalizing n with
  | zero => simp [natToCharsAux] at hc
  | succ f ih =>
    rw [natToCharsAux] at hc
    split at hc
    · next h => exact ⟨n, h, by simpa using hc⟩
    · next h =>
      rcases List.mem_append.mp hc with h1 | h1
      · exact ih h1
      · exact ⟨n % 10, Nat.mod_lt _ (by omega), by simpa using h1⟩

theorem natToChars_ne_nil (n : Nat) : natToChars n ≠ [] := by
  rw [natToChars, natToCharsAux]
  split
  · simp
  · simp

theorem digitsToNat_append (xs : Str) (c : Char) :
    digitsToNat (xs ++ [c]) = 10 * digitsToNat xs + (c.toNat - 48) := by
  simp [digitsToNat, List.foldl_append]

theorem digitsToNat_natToCharsAux {f n : Nat} (h : n < 10 ^ f) :
    digitsToNat (natToCharsAux f n) = n := by
  induction f generalizing n with
  | zero =>
    simp only [pow_zero, Nat.lt_one_iff] at h
    simp [h, natToCharsAux, digitsToNat]
  | succ f ih =>
    rw [natToCharsAux]
    split
    · next h10 =>
      simp [digitsToNat, digitChar_toNat h10]
    · next h10 =>
      have hdiv : n / 10 < 10 ^ f := by
        rw [pow_succ] at h
        exact (Nat.div_lt_iff_lt_mul (by omega)).mpr h
      rw [digitsToNat_append, ih hdiv, digitChar_toNat (Nat.mod_lt _ (by omega))]
      omega

theorem digitsToNat_natToChars (n : Nat) : digitsToNat (natToChars n) = n := by
  have h1 : n < 10 ^ n := Nat.lt_pow_self (by norm_num) n
  have h2 : 10 ^ n ≤ 10 ^ (n + 1) := Nat.pow_le_pow_right (by norm_num) (Nat.le_succ n)
  exact digitsToNat_natToCharsAux (by omega)

theorem mem_natToChars_isDigit {n : Nat} {c : Char} (hc : c ∈ natToChars n) :
    isDigitChar c = true := by
  obtain ⟨d, hd, rfl⟩ := mem_natToCharsAux hc
  exact isDigitChar_digitChar hd

theorem isDigitChar_toNat {c : Char} (h : isDigitChar c = true) :
    48 ≤ c.toNat ∧ c.toNat ≤ 57 := by
  simpa [isDigitChar] using h

theorem digit_ne_bar {c : Char} (h : isDigitChar c = true) : c ≠ '|' := by
  intro hc; subst hc; exact absurd h (by decide)

theorem digit_ne_newline {c : Char} (h : isDigitChar c = true) : c ≠ '\n' := by
  intro hc; subst hc; exact absurd h (by decide)

theorem digit_ne_minus {c : Char} (h : isDigitChar c = true) : c ≠ '-' := by
  intro hc; subst hc; exact absurd h (by decide)

theorem digit_ne_plus {c : Char} (h : isDigitChar c = true) : c ≠ '+' := by
  intro hc; subst hc; exact absurd h (by decide)

theorem digit_not_space {c : Char} (h : isDigitChar c = true) : cppIsSpace c = false := by
  obtain ⟨h1, h2⟩ := isDigitChar_toNat h
  simp only [cppIsSpace]
  simp only [Bool.or_eq_false_iff, Bool.and_eq_false_iff, decide_eq_false_iff_not]
  omega

theorem mem_intToChars {i : Int} {c : Char} (hc : c ∈ intToChars i) :
    c = '-' ∨ isDigitChar c = true := by
  rw [intToChars] at hc
  split at hc
  · rcases List.mem_cons.mp hc with h | h
    · exact Or.inl h
    · exact Or.inr (mem_natToChars_isDigit h)
  · exact Or.inr (mem_natToChars_isDigit hc)

theorem bar_not_mem_intToChars (i : Int) : '|' ∉ intToChars i := by
  intro hc
  rcases mem_intToChars hc with h | h
  · exact absurd h (by decide)
  · exact absurd h (by decide)

theorem newline_not_mem_intToChars (i : Int) : '\n' ∉ intToChars i := by
  intro hc
  rcases mem_intToChars hc with h | h
  · exact absurd h (by decide)
  · exact absurd h (by decide)

/-! ### `std::stoi` inverts decimal printing -/

theorem takeWhile_all {p : Char → Bool} {l : Str} (h : ∀ c ∈ l, p c = true) :
    l.takeWhile p = l := by
  induction l with
  | nil => rfl
  | cons c cs ih =>
    rw [List.takeWhile_cons, h c (by simp)]
    simp only [ite_true]
    rw [ih (fun x hx => h x (by simp [hx]))]

theorem stoi_natToChars {n : Nat} (h : (n : Int) ≤ intMax) :
    stoi (natToChars n) = some ((n : Int)) := by
  have hd : ∀ x ∈ natToChars n, isDigitChar x = true := fun x hx => mem_natToChars_isDigit hx
  obtain ⟨c, cs, hcons⟩ := List.exists_cons_of_ne_nil (natToChars_ne_nil n)
  have hcd : isDigitChar c = true := hd c (by rw [hcons]; simp)
  have hdrop : (natToChars n).dropWhile cppIsSpace = natToChars n := by
    rw [hcons, List.dropWhile_cons, digit_not_space hcd]
    simp
  have hsign : stoiSign (natToChars n) = 1 := by
    rw [stoiSign, hcons]
    simp [digit_ne_minus hcd]
  have hne : ¬(some c = some '-' ∨ some c = some '+') := by
    simp [digit_ne_minus hcd, digit_ne_plus hcd]
  have hdigits : stoiDigits (natToChars n) = natToChars n := by
    rw [stoiDigits, hcons]
    simp only [List.head?_cons]
    rw [if_neg hne, ← hcons]
    exact takeWhile_all hd
  have hmin : intMin ≤ (n : Int) := by
    have h0 : (0 : Int) ≤ (n : Int) := Int.natCast_nonneg n
    have hm : intMin ≤ 0 := by decide
    omega
  rw [stoi, hdrop, stoiParse, hdigits, hsign,
    if_neg (by rw [← hdigits] at hcons ⊢; exact fun he => natToChars_ne_nil n (hdigits ▸ he))]
  rw [digitsToNat_natToChars, one_mul, if_neg (by push_neg; exact ⟨hmin, h⟩)]

theorem stoi_neg_natToChars {n : Nat} (h : intMin ≤ -(n : Int)) :
    stoi ('-' :: natToChars n) = some (-(n : Int)) := by
  have hd : ∀ x ∈ natToChars n, isDigitChar x = true := fun x hx => mem_natToChars_isDigit hx
  have hsp : cppIsSpace '-' = false := by decide
  have hdrop : ('-' :: natToChars n).dropWhile cppIsSpace = '-' :: natToChars n := by
    rw [List.dropWhile_cons, hsp]
    simp
  have hsign : stoiSign ('-' :: natToChars n) = -1 := by
    simp [stoiSign]
  have hdigits : stoiDigits ('-' :: natToChars n) = natToChars n := by
    rw [stoiDigits]
    simp only [List.head?_cons, if_pos (Or.inl rfl), List.tail_cons]
    exact takeWhile_all hd
  have hmax : -(n : Int) ≤ intMax := by
    have h0 : (0 : Int) ≤ (n : Int) := Int.natCast_nonneg n
    have hm : (0 : Int) ≤ intMax := by decide
    omega
  rw [stoi, hdrop, stoiParse, hdigits, hsign,
    if_neg (natToChars_ne_nil n), digitsToNat_natToChars,
    if_neg (by push_neg; constructor <;> omega)]
  norm_num

theorem stoi_intToChars {i : Int} (h1 : intMin ≤ i) (h2 : i ≤ intMax) :
    stoi (intToChars i) = some i := by
  rw [intToChars]
  split
  · next hneg =>
    have hcast : (((-i).toNat : Int)) = -i := Int.toNat_of_nonneg (by omega)
    rw [stoi_neg_natToChars (by omega), hcast, neg_neg]
  · next hpos =>
    have hcast : ((i.toNat : Int)) = i := Int.toNat_of_nonneg (by omega)
    rw [stoi_natToChars (by omega), hcast]

/-! ### Splitting a stream at a delimiter -/

theorem splitFirst_not_mem {d : Char} {s : Str} (h : d ∉ s) : splitFirst d s = (s, []) := by
  induction s with
  | nil => rfl
  | cons c cs ih =>
    have h1 : ¬ c = d := by intro hcd; exact h (by simp [hcd])
    have h2 : d ∉ cs := fun hm => h (by simp [hm])
    rw [splitFirst, if_neg h1, ih h2]

theorem splitFirst_append {d : Char} {a : Str} (b : Str) (h : d ∉ a) :
    splitFirst d (a ++ d :: b) = (a, b) := by
  induction a with
  | nil => simp [splitFirst]
  | cons c cs ih =>
    have h1 : ¬ c = d := by intro hcd; exact h (by simp [hcd])
    have h2 : d ∉ cs := fun hm => h (by simp [hm])
    rw [List.cons_append, splitFirst, if_neg h1, ih h2]

theorem getlineDelim_nil (d : Char) : getlineDelim [] d = none := rfl

theorem getlineDelim_cons (c : Char) (cs : Str) (d : Char) :
    getlineDelim (c :: cs) d = some (splitFirst d (c :: cs)) := rfl

theorem getlineDelim_append {d : Char} {a : Str} (b : Str) (h : d ∉ a) :
    getlineDelim (a ++ d :: b) d = some (a, b) := by
  cases a with
  | nil => rw [List.nil_append, getlineDelim_cons, splitFirst, if_pos rfl]
  | cons c cs =>
    rw [List.cons_append, getlineDelim_cons, ← List.cons_append, splitFirst_append b h]

theorem getlineDelim_no_delim {d : Char} {s : Str} (hne : s ≠ []) (h : d ∉ s) :
    getlineDelim s d = some (s, []) := by
  cases s with
  | nil => exact absurd rfl hne
  | cons c cs => rw [getlineDelim_cons, splitFirst_not_mem h]

/-! ### Lines of a file -/

theorem linesOf_nil : linesOf [] = [] := rfl

theorem linesOf_cons_newline (r : Str) : linesOf ('\n' :: r) = [] :: linesOf r := by
  rw [linesOf, if_pos rfl]

theorem linesOf_append_newline {l : Str} (r : Str) (h : '\n' ∉ l) :
    linesOf (l ++ '\n' :: r) = l :: linesOf r := by
  induction l with
  | nil => simpa using linesOf_cons_newline r
  | cons c cs ih =>
    have h1 : ¬ c = '\n' := by intro hc; exact h (by simp [hc])
    have h2 : '\n' ∉ cs := fun hm => h (by simp [hm])
    rw [List.cons_append, linesOf, if_neg h1, ih h2]

/-! ### Parsing one well-formed record line -/

theorem parseTaskLine_fields {a b c : Str} (ha : '|' ∉ a) (hb : '|' ∉ b)
    (hc : '\n' ∉ c) (hcne : c ≠ []) :
    parseTaskLine (a ++ '|' :: (b ++ '|' :: c)) = some (a, b, c) := by
  have h1 : getlineDelim (a ++ '|' :: (b ++ '|' :: c)) '|' = some (a, b ++ '|' :: c) :=
    getlineDelim_append _ ha
  have h2 : getlineDelim (b ++ '|' :: c) '|' = some (b, c) := getlineDelim_append _ hb
  have h3 : getlineDelim c '\n' = some (c, []) := getlineDelim_no_delim hcne hc
  simp only [parseTaskLine, h1, h2, h3]

theorem parseTaskLine_two_fields {a b : Str} (ha : '|' ∉ a) (hb : '|' ∉ b) :
    parseTaskLine (a ++ '|' :: b) = none := by
  have h1 : getlineDelim (a ++ '|' :: b) '|' = some (a, b) := getlineDelim_append _ ha
  by_cases hb0 : b = []
  · subst hb0
    simp only [parseTaskLine, h1, getlineDelim_nil]
  · have h2 : getlineDelim b '|' = some (b, []) := getlineDelim_no_delim hb0 hb
    simp only [parseTaskLine, h1, h2, getlineDelim_nil]

theorem parseTaskLine_trailing_bar {a b : Str} (ha : '|' ∉ a) (hb : '|' ∉ b) :
    parseTaskLine (a ++ '|' :: (b ++ ['|'])) = none := by
  have h1 : getlineDelim (a ++ '|' :: (b ++ ['|'])) '|' = some (a, b ++ ['|']) :=
    getlineDelim_append _ ha
  have h2 : getlineDelim (b ++ ['|']) '|' = some (b, []) := by
    simpa using getlineDelim_append (a := b) [] hb
  simp only [parseTaskLine, h1, h2, getlineDelim_nil]

theorem parseTaskLine_no_bar {a : Str} (ha : '|' ∉ a) : parseTaskLine a = none := by
  cases ha2 : a with
  | nil => rfl
  | cons x xs =>
    have h1 : getlineDelim a '|' = some (a, []) :=
      getlineDelim_no_delim (by simp [ha2]) ha
    rw [← ha2]
    simp only [parseTaskLine, h1, getlineDelim_nil]

/-! ### Loading well-formed record lines -/

theorem loadLine_skip {st : List Task × Int} {l : Str} (h : parseTaskLine l = none) :
    loadLine st l = some st := by
  simp only [loadLine, h]

theorem loadLine_fields {tasks : List Task} {n : Int} {a b c : Str} {i : Int}
    (ha : '|' ∉ a) (hb : '|' ∉ b) (hc : '\n' ∉ c) (hcne : c ≠ [])
    (hi : stoi a = some i) :
    loadLine (tasks, n) (a ++ '|' :: (b ++ '|' :: c)) =
      some (tasks ++ [⟨i, b, c == ['1']⟩], if i ≥ n + 1 then i + 1 else n + 1) := by
  simp only [loadLine, parseTaskLine_fields ha hb hc hcne, hi]

theorem taskRecordChars_eq (t : Task) :
    taskRecordChars t =
      intToChars t.id ++ '|' ::
        (t.description ++ '|' :: (if t.completed then ['1'] else ['0'])) := by
  simp [taskRecordChars]

theorem loadLine_taskRecord {tasks : List Task} {n : Int} {t : Task}
    (hd1 : '|' ∉ t.description) (hid1 : intMin ≤ t.id) (hid2 : t.id ≤ intMax) :
    loadLine (tasks, n) (taskRecordChars t) =
      some (tasks ++ [t], if t.id ≥ n + 1 then t.id + 1 else n + 1) := by
  have hfc : '\n' ∉ (if t.completed then ['1'] else ['0']) := by
    cases t.completed <;> decide
  have hfne : (if t.completed then ['1'] else ['0']) ≠ [] := by
    cases t.completed <;> decide
  have hflag : ((if t.completed then ['1'] else ['0']) == ['1']) = t.completed := by
    cases t.completed <;> decide
  rw [taskRecordChars_eq,
    loadLine_fields (bar_not_mem_intToChars t.id) hd1 hfc hfne (stoi_intToChars hid1 hid2),
    hflag]

theorem newline_not_mem_taskRecord {t : Task} (hd : '\n' ∉ t.description) :
    '\n' ∉ taskRecordChars t := by
  rw [taskRecordChars_eq]
  intro hm
  rcases List.mem_append.mp hm with h | h
  · exact newline_not_mem_intToChars _ h
  · rcases List.mem_cons.mp h with h | h
    · exact absurd h (by decide)
    · rcases List.mem_append.mp h with h | h
      · exact hd h
      · rcases List.mem_cons.mp h with h | h
        · exact absurd h (by decide)
        · revert h
          cases t.completed <;> decide

theorem linesOf_save {tasks : List Task} (h : ∀ t ∈ tasks, '\n' ∉ t.description) :
    linesOf (saveTasksToFile tasks) = tasks.map taskRecordChars := by
  induction tasks with
  | nil => rfl
  | cons t ts ih =>
    have hsave : saveTasksToFile (t :: ts) =
        taskRecordChars t ++ '\n' :: saveTasksToFile ts := by
      simp [saveTasksToFile]
    rw [hsave, linesOf_append_newline _ (newline_not_mem_taskRecord (h t (by simp))),
      ih (fun x hx => h x (by simp [hx])), List.map_cons]

theorem loadLines_records (ts : List Task) :
    ∀ (acc : List Task) (n : Int),
    (∀ t ∈ ts, '|' ∉ t.description ∧ intMin ≤ t.id ∧ t.id ≤ intMax) →
    ∃ n2, loadLines (acc, n) (ts.map taskRecordChars) = some (acc ++ ts, n2) := by
  induction ts with
  | nil =>
    intro acc n _
    exact ⟨n, by simp [loadLines]⟩
  | cons t ts ih =>
    intro acc n h
    obtain ⟨h1, h2, h3⟩ := h t (by simp)
    obtain ⟨n2, hn2⟩ := ih (acc ++ [t]) (if t.id ≥ n + 1 then t.id + 1 else n + 1)
      (fun x hx => h x (by simp [hx]))
    refine ⟨n2, ?_⟩
    rw [List.map_cons]
    simp only [loadLines, loadLine_taskRecord h1 h2 h3]
    rw [hn2]
    simp

/-! ### The id bound maintained by loading -/

theorem loadLine_bound {st st2 : List Task × Int} {l : Str}
    (h : loadLine st l = some st2) (hb : ∀ t ∈ st.1, t.id < st.2) :
    ∀ t ∈ st2.1, t.id < st2.2 := by
  rcases hp : parseTaskLine l with _ | ⟨⟨a, b, c⟩⟩
  · rw [loadLine_skip hp] at h
    injection h with h
    subst h
    exact hb
  · rcases hs : stoi a with _ | i
    · rw [loadLine] at h
      simp only [hp, hs] at h
      exact Option.noConfusion h
    · simp only [loadLine, hp, hs, Option.some.injEq] at h
      subst h
      intro t ht
      rcases List.mem_append.mp ht with hmem | hmem
      · have := hb t hmem
        simp only []
        split <;> omega
      · simp only [List.mem_singleton] at hmem
        subst hmem
        simp only []
        split <;> omega

theorem loadLines_bound : ∀ (ls : List Str) (st st2 : List Task × Int),
    loadLines st ls = some st2 → (∀ t ∈ st.1, t.id < st.2) →
    ∀ t ∈ st2.1, t.id < st2.2 := by
  intro ls
  induction ls with
  | nil =>
    intro st st2 h hb
    simp only [loadLines, Option.some.injEq] at h
    subst h
    exact hb
  | cons l ls ih =>
    intro st st2 h hb
    rcases hl : loadLine st l with _ | st1
    · simp only [loadLines, hl] at h
      exact Option.noConfusion h
    · simp only [loadLines, hl] at h
      exact ih st1 st2 h (loadLine_bound hl hb)

/-! ### First-match structure of toggle, delete and edit -/

theorem toggle_not_found {tasks : List Task} {i : Int} (h : ∀ t ∈ tasks, t.id ≠ i) :
    toggleTaskComplete tasks i = (tasks, false) := by
  induction tasks with
  | nil => rfl
  | cons t rest ih =>
    rw [toggleTaskComplete, if_neg (h t (by simp)), ih (fun x hx => h x (by simp [hx]))]

theorem delete_not_found {tasks : List Task} {i : Int} (h : ∀ t ∈ tasks, t.id ≠ i) :
    deleteTask tasks i = (tasks, false) := by
  induction tasks with
  | nil => rfl
  | cons t rest ih =>
    rw [deleteTask, if_neg (h t (by simp)), ih (fun x hx => h x (by simp [hx]))]

theorem first_match {tasks : List Task} {i : Int} (h : ∃ t ∈ tasks, t.id = i) :
    ∃ pre t post, tasks = pre ++ t :: post ∧ t.id = i ∧ ∀ u ∈ pre, u.id ≠ i := by
  induction tasks with
  | nil => simp at h
  | cons u rest ih =>
    by_cases hu : u.id = i
    · exact ⟨[], u, rest, by simp, hu, by simp⟩
    · obtain ⟨t, ht, hti⟩ := h
      rcases List.mem_cons.mp ht with rfl | htr
      · exact absurd hti hu
      · obtain ⟨pre, t2, post, h1, h2, h3⟩ := ih ⟨t, htr, hti⟩
        refine ⟨u :: pre, t2, post, by simp [h1], h2, ?_⟩
        intro x hx
        rcases List.mem_cons.mp hx with rfl | hxx
        · exact hu
        · exact h3 x hxx

theorem toggle_found {pre : List Task} {t : Task} {post : List Task} {i : Int}
    (hpre : ∀ u ∈ pre, u.id ≠ i) (ht : t.id = i) :
    toggleTaskComplete (pre ++ t :: post) i =
      (pre ++ { t with completed := !t.completed } :: post, true) := by
  induction pre with
  | nil => simp [toggleTaskComplete, ht]
  | cons u pre ih =>
    rw [List.cons_append, toggleTaskComplete, if_neg (hpre u (by simp)),
      ih (fun x hx => hpre x (by simp [hx]))]
    simp

theorem delete_found {pre : List Task} {t : Task} {post : List Task} {i : Int}
    (hpre : ∀ u ∈ pre, u.id ≠ i) (ht : t.id = i) :
    deleteTask (pre ++ t :: post) i = (pre ++ post, true) := by
  induction pre with
  | nil => simp [deleteTask, ht]
  | cons u pre ih =>
    rw [List.cons_append, deleteTask, if_neg (hpre u (by simp)),
      ih (fun x hx => hpre x (by simp [hx]))]
    simp

theorem edit_found {pre : List Task} {t : Task} {post : List Task} {i : Int} {d : Str}
    (hpre : ∀ u ∈ pre, u.id ≠ i) (ht : t.id = i) :
    editTask (pre ++ t :: post) i d =
      (pre ++ { t with description := d } :: post, true) := by
  induction pre with
  | nil => simp [editTask, ht]
  | cons u pre ih =>
    rw [List.cons_append, editTask, if_neg (hpre u (by simp)),
      ih (fun x hx => hpre x (by simp [hx]))]
    simp

/-! ### The ids are untouched by toggle and edit, shrunk by delete -/

theorem idsOf_toggle (tasks : List Task) (i : Int) :
    idsOf (toggleTaskComplete tasks i).1 = idsOf tasks := by
  induction tasks with
  | nil => rfl
  | cons t rest ih =>
    rw [toggleTaskComplete]
    split
    · simp [idsOf]
    · simpa [idsOf] using ih

theorem idsOf_edit (tasks : List Task) (i : Int) (d : Str) :
    idsOf (editTask tasks i d).1 = idsOf tasks := by
  induction tasks with
  | nil => rfl
  | cons t rest ih =>
    rw [editTask]
    split
    · simp [idsOf]
    · simpa [idsOf] using ih

theorem delete_subset {tasks : List Task} {i : Int} {t : Task}
    (h : t ∈ (deleteTask tasks i).1) : t ∈ tasks := by
  induction tasks with
  | nil => simpa [deleteTask] using h
  | cons u rest ih =>
    rw [deleteTask] at h
    split at h
    · exact List.mem_cons_of_mem u h
    · rcases List.mem_cons.mp h with rfl | hm
      · exact List.mem_cons_self _ _
      · exact List.mem_cons_of_mem u (ih hm)

theorem nodup_delete {tasks : List Task} (i : Int) (h : (idsOf tasks).Nodup) :
    (idsOf (deleteTask tasks i).1).Nodup := by
  induction tasks with
  | nil => simpa [deleteTask] using h
  | cons u rest ih =>
    simp only [idsOf, List.map_cons, List.nodup_cons] at h
    rw [deleteTask]
    split
    · exact h.2
    · simp only [idsOf, List.map_cons, List.nodup_cons]
      refine ⟨?_, ih h.2⟩
      intro hmem
      obtain ⟨x, hx, hxid⟩ := List.mem_map.mp hmem
      exact h.1 (List.mem_map.mpr ⟨x, delete_subset hx, hxid⟩)

/-! ### The store invariant and its preservation by every operation -/

/-- The data-model invariant: pairwise-distinct ids, and `Task::nextId`
strictly above every id in the vector. -/
def StoreInv (st : List Task × Int) : Prop :=
  (idsOf st.1).Nodup ∧ ∀ t ∈ st.1, t.id < st.2

theorem bound_of_idsOf {tasks : List Task} {n : Int} (hb : ∀ t ∈ tasks, t.id < n)
    {tasks2 : List Task} (hids : idsOf tasks2 = idsOf tasks) :
    ∀ t ∈ tasks2, t.id < n := by
  intro t ht
  have hmem : t.id ∈ idsOf tasks := hids ▸ List.mem_map_of_mem Task.id ht
  obtain ⟨u, hu, huid⟩ := List.mem_map.mp hmem
  exact huid ▸ hb u hu

theorem storeInv_applyOp {st : List Task × Int} (h : StoreInv st) (o : Op) :
    StoreInv (applyOp st o) := by
  obtain ⟨hnd, hb⟩ := h
  cases o with
  | create d =>
    simp only [applyOp, addTask, StoreInv, idsOf, List.map_append, List.map_cons,
      List.map_nil]
    constructor
    · rw [List.nodup_append]
      refine ⟨hnd, List.nodup_singleton _, ?_⟩
      intro x hx hmem
      simp only [List.mem_singleton] at hmem
      subst hmem
      obtain ⟨u, hu, huid⟩ := List.mem_map.mp hx
      exact absurd (huid ▸ hb u hu) (lt_irrefl _)
    · intro t ht
      rcases List.mem_append.mp ht with hm | hm
      · exact lt_trans (hb t hm) (by omega)
      · simp only [List.mem_singleton] at hm
        subst hm
        simp
  | toggle i =>
    exact ⟨by simpa [StoreInv, applyOp, idsOf_toggle] using hnd,
      bound_of_idsOf hb (idsOf_toggle st.1 i)⟩
  | remove i =>
    exact ⟨nodup_delete i hnd, fun t ht => hb t (delete_subset ht)⟩
  | edit i d =>
    exact ⟨by simpa [StoreInv, applyOp, idsOf_edit] using hnd,
      bound_of_idsOf hb (idsOf_edit st.1 i d)⟩

theorem storeInv_applyOps {st : List Task × Int} (h : StoreInv st) (ops : List Op) :
    StoreInv (applyOps st ops) := by
  induction ops generalizing st with
  | nil => exact h
  | cons o os ih => exact ih (storeInv_applyOp h o)

/-! ## Claim theorems -/

/-- Claim C1, counterexample: the round-trip law fails as stated.  For
the single task `{1, "A|B", false}`, `saveTasksToFile` writes the line
`1|A|B|0`, and a fresh `loadTasksFromFile` of that storage yields the
task `{1, "A", false}` — the description is truncated at the unescaped
delimiter — which differs from the saved sequence. -/
theorem roundTrip_counterexample :
    loadTasksFromFile [] 1
        (some (saveTasksToFile [⟨1, ['A', '|', 'B'], false⟩])) =
      some ([⟨1, ['A'], false⟩], 2) ∧
    ([⟨1, ['A'], false⟩] : List Task) ≠ [⟨1, ['A', '|', 'B'], false⟩] := by
  constructor
  · decide
  · decide

/-- Claim C1 (amended): `saveTasksToFile` followed by a fresh
`loadTasksFromFile` from the storage it wrote reproduces the identical
ordered sequence of records — same ids, descriptions and completed
flags, in the same order — provided no description contains the
delimiter `'|'` or a newline, and every id fits in a C++ `int`. -/
theorem roundTrip_amended (ts : List Task) (n0 : Int)
    (h : ∀ t ∈ ts, '|' ∉ t.description ∧ '\n' ∉ t.description ∧
      intMin ≤ t.id ∧ t.id ≤ intMax) :
    ∃ n2, loadTasksFromFile [] n0 (some (saveTasksToFile ts)) = some (ts, n2) := by
  rw [loadTasksFromFile, linesOf_save (fun t ht => (h t ht).2.1)]
  simpa using loadLines_records ts [] n0 (fun t ht => ⟨(h t ht).1, (h t ht).2.2⟩)

theorem roundTrip_amended_witness :
    (∀ t ∈ ([⟨1, ['A'], false⟩, ⟨2, [], true⟩] : List Task),
      '|' ∉ t.description ∧ '\n' ∉ t.description ∧ intMin ≤ t.id ∧ t.id ≤ intMax) ∧
    ∃ n2, loadTasksFromFile [] 1
        (some (saveTasksToFile [⟨1, ['A'], false⟩, ⟨2, [], true⟩])) =
      some ([⟨1, ['A'], false⟩, ⟨2, [], true⟩], n2) :=
  ⟨by decide, roundTrip_amended _ 1 (by decide)⟩

/-- Claim C2: starting from any store state, the ids of the tasks
returned by successive `addTask` calls are strictly increasing, hence
pairwise distinct. -/
theorem create_ids_increasing (tasks : List Task) (nextId : Int) (ds : List Str) :
    ((addTaskRun tasks nextId ds).2.2.map Task.id).Pairwise (· < ·) ∧
    ((addTaskRun tasks nextId ds).2.2.map Task.id).Nodup := by
  have key : ∀ (ds : List Str) (tasks : List Task) (n : Int),
      ((addTaskRun tasks n ds).2.2.map Task.id).Pairwise (· < ·) ∧
      (∀ x ∈ (addTaskRun tasks n ds).2.2.map Task.id, n ≤ x) := by
    intro ds
    induction ds with
    | nil =>
      intro tasks n
      exact ⟨List.Pairwise.nil, by simp [addTaskRun]⟩
    | cons d ds ih =>
      intro tasks n
      obtain ⟨hp, hb⟩ := ih (tasks ++ [⟨n, d, false⟩]) (n + 1)
      constructor
      · rw [addTaskRun]
        simp only [List.map_cons]
        exact List.Pairwise.cons (fun x hx => by have := hb x hx; omega) hp
      · rw [addTaskRun]
        simp only [List.map_cons]
        intro x hx
        rcases List.mem_cons.mp hx with rfl | hm
        · simp
        · have := hb x hm
          omega
  obtain ⟨hp, _⟩ := key ds tasks nextId
  exact ⟨hp, hp.imp (fun hlt => ne_of_lt hlt)⟩

/-- Claim C7, counterexample: "exactly one line per task" fails as
stated.  For the single task `{1, "A\nB", false}` the persisted file
splits into two lines, `1|A` and `B|0`, neither of which is the
claimed `id|description|completed` encoding of the task. -/
theorem save_one_line_counterexample :
    linesOf (saveTasksToFile [⟨1, ['A', '\n', 'B'], false⟩]) =
      [['1', '|', 'A'], ['B', '|', '0']] := by
  decide

/-- Claim C7 (amended): provided no description contains a newline,
`saveTasksToFile` writes exactly one line per task, in sequence order,
each line being the decimal id, the description and the completed flag
(`'1'` for true, `'0'` for false) joined by the `'|'` delimiter. -/
theorem save_lines_amended (ts : List Task) (h : ∀ t ∈ ts, '\n' ∉ t.description) :
    linesOf (saveTasksToFile ts) =
      ts.map (fun t =>
        intToChars t.id ++ '|' :: t.description ++ '|' ::
          (if t.completed then ['1'] else ['0'])) :=
  linesOf_save h

theorem save_lines_amended_witness :
    (∀ t ∈ (toggleTaskComplete [⟨1, ['A'], false⟩, ⟨2, ['B'], true⟩] 1).1,
      '\n' ∉ t.description) ∧
    linesOf (saveTasksToFile
        (toggleTaskComplete [⟨1, ['A'], false⟩, ⟨2, ['B'], true⟩] 1).1) =
      [['1', '|', 'A', '|', '1'], ['2', '|', 'B', '|', '1']] :=
  ⟨by decide, by
    rw [save_lines_amended _ (by decide)]
    decide⟩

/-- Claim C3: for every store and every id not present in it,
`toggleTaskComplete` and `deleteTask` each report not-found (`false`),
leave the task vector unchanged — so a subsequent List returns exactly
what it returned before — and do not call `saveTasksToFile` (the `Bool`
component is `true` exactly on the paths that save). -/
theorem notFound_noop (tasks : List Task) (i : Int)
    (h : ∀ t ∈ tasks, t.id ≠ i) :
    toggleTaskComplete tasks i = (tasks, false) ∧
    deleteTask tasks i = (tasks, false) :=
  ⟨toggle_not_found h, delete_not_found h⟩

theorem notFound_noop_witness :
    (∀ t ∈ ([⟨1, ['A'], false⟩, ⟨2, ['B'], true⟩] : List Task), t.id ≠ 99) ∧
    (toggleTaskComplete [⟨1, ['A'], false⟩, ⟨2, ['B'], true⟩] 99 =
        ([⟨1, ['A'], false⟩, ⟨2, ['B'], true⟩], false) ∧
      deleteTask [⟨1, ['A'], false⟩, ⟨2, ['B'], true⟩] 99 =
        ([⟨1, ['A'], false⟩, ⟨2, ['B'], true⟩], false)) :=
  ⟨by decide, notFound_noop _ 99 (by decide)⟩

/-- Claim C5: toggling an id that is present twice in succession returns
the store to exactly its original state — the completed flag is back to
its original value and every record, and the order, is as before — and
the first toggle did find the record. -/
theorem toggle_twice_id (tasks : List Task) (i : Int)
    (h : ∃ t ∈ tasks, t.id = i) :
    (toggleTaskComplete (toggleTaskComplete tasks i).1 i).1 = tasks ∧
    (toggleTaskComplete tasks i).2 = true := by
  obtain ⟨pre, t, post, rfl, hti, hpre⟩ := first_match h
  have h2 : ({ t with completed := !t.completed } : Task).id = i := hti
  constructor
  · rw [toggle_found hpre hti]
    show (toggleTaskComplete (pre ++ { t with completed := !t.completed } :: post) i).1 =
      pre ++ t :: post
    rw [toggle_found hpre h2]
    simp [Bool.not_not]
  · rw [toggle_found hpre hti]

theorem toggle_twice_id_witness :
    (∃ t ∈ ([⟨1, ['A'], false⟩, ⟨2, ['B'], true⟩] : List Task), t.id = 2) ∧
    ((toggleTaskComplete
        (toggleTaskComplete [⟨1, ['A'], false⟩, ⟨2, ['B'], true⟩] 2).1 2).1 =
        [⟨1, ['A'], false⟩, ⟨2, ['B'], true⟩] ∧
      (toggleTaskComplete [⟨1, ['A'], false⟩, ⟨2, ['B'], true⟩] 2).2 = true) :=
  ⟨by decide, toggle_twice_id _ 2 (by decide)⟩

/-- Claim C6: editing an id that is present replaces only the
`description` of the first record carrying that id: its `id` and
`completed` flag are kept, and every record before and after it — and
the order of the sequence — is unchanged. -/
theorem edit_frame (tasks : List Task) (i : Int) (d : Str)
    (h : ∃ t ∈ tasks, t.id = i) :
    ∃ pre t post,
      tasks = pre ++ t :: post ∧ t.id = i ∧ (∀ u ∈ pre, u.id ≠ i) ∧
      editTask tasks i d =
        (pre ++ { id := t.id, description := d, completed := t.completed } :: post,
          true) := by
  obtain ⟨pre, t, post, rfl, hti, hpre⟩ := first_match h
  exact ⟨pre, t, post, rfl, hti, hpre, edit_found hpre hti⟩

theorem edit_frame_witness :
    (∃ t ∈ ([⟨1, ['A'], false⟩, ⟨2, ['B'], true⟩] : List Task), t.id = 2) ∧
    (∃ pre t post,
      ([⟨1, ['A'], false⟩, ⟨2, ['B'], true⟩] : List Task) = pre ++ t :: post ∧
      t.id = 2 ∧ (∀ u ∈ pre, u.id ≠ 2) ∧
      editTask [⟨1, ['A'], false⟩, ⟨2, ['B'], true⟩] 2 ['C'] =
        (pre ++ { id := t.id, description := ['C'], completed := t.completed } :: post,
          true)) :=
  ⟨by decide, edit_frame _ 2 ['C'] (by decide)⟩

/-- Claim C8: a fresh `loadTasksFromFile` with no storage file yields the
empty sequence and `nextId = 1` without error; and whenever loading a
present storage file completes, the restored `nextId` is strictly
greater than every id among the loaded records. -/
theorem initialize_spec :
    loadTasksFromFile [] 1 none = some ([], 1) ∧
    ∀ (contents : Str) (ts : List Task) (n2 : Int),
      loadTasksFromFile [] 1 (some contents) = some (ts, n2) →
      ∀ t ∈ ts, t.id < n2 := by
  refine ⟨rfl, ?_⟩
  intro contents ts n2 h
  have h2 : loadLines ([], 1) (linesOf contents) = some (ts, n2) := h
  exact loadLines_bound (linesOf contents) ([], 1) (ts, n2) h2
    (fun t ht => absurd ht (List.not_mem_nil t))

theorem initialize_spec_witness :
    loadTasksFromFile [] 1 (some ['5', '|', 'A', '|', '0', '\n']) =
      some ([⟨5, ['A'], false⟩], 6) ∧
    (∀ t ∈ ([⟨5, ['A'], false⟩] : List Task), t.id < 6) :=
  ⟨by decide,
    initialize_spec.2 ['5', '|', 'A', '|', '0', '\n'] [⟨5, ['A'], false⟩] 6 (by decide)⟩

/-- Claim C4, counterexample: loading is not total in the file contents.
On the storage contents `x|y|1` the line parses into three fields, but
`std::stoi("x")` throws `std::invalid_argument`; the exception is
uncaught, so the process terminates (`none`). -/
theorem load_crash_counterexample :
    loadTasksFromFile [] 1 (some ['x', '|', 'y', '|', '1']) = none := by
  decide

/-- Claim C4 (amended): `loadTasksFromFile` completes normally provided
every line of the storage file is either skipped (fewer than three
fields) or has an id field `std::stoi` accepts; on such contents no file
error is fatal. -/
theorem load_total_amended (tasks : List Task) (n : Int) (contents : Str)
    (h : ∀ l ∈ linesOf contents, lineLoadsSafely l = true) :
    (loadTasksFromFile tasks n (some contents)).isSome := by
  have key : ∀ (ls : List Str) (st : List Task × Int),
      (∀ l ∈ ls, lineLoadsSafely l = true) → (loadLines st ls).isSome := by
    intro ls
    induction ls with
    | nil =>
      intro st _
      simp [loadLines]
    | cons l ls ih =>
      intro st hls
      have hl : lineLoadsSafely l = true := hls l (by simp)
      rcases hp : parseTaskLine l with _ | ⟨⟨a, b, c⟩⟩
      · simp only [loadLines, loadLine_skip hp]
        exact ih st (fun x hx => hls x (by simp [hx]))
      · simp only [lineLoadsSafely, hp] at hl
        rcases hs : stoi a with _ | i
        · rw [hs] at hl
          simp at hl
        · have heq : loadLine st l =
              some (st.1 ++ [⟨i, b, c == ['1']⟩],
                if i ≥ st.2 + 1 then i + 1 else st.2 + 1) := by
            simp only [loadLine, hp, hs]
          simp only [loadLines, heq]
          exact ih _ (fun x hx => hls x (by simp [hx]))
  exact key (linesOf contents) (tasks, n) h

theorem load_total_amended_witness :
    (∀ l ∈ linesOf ['1', '|', 'A', '|', '0', '\n', 'j', 'u', 'n', 'k', '\n'],
      lineLoadsSafely l = true) ∧
    (loadTasksFromFile [] 1
        (some ['1', '|', 'A', '|', '0', '\n', 'j', 'u', 'n', 'k', '\n'])).isSome :=
  ⟨by decide, load_total_amended [] 1 _ (by decide)⟩

/-- Claim C9, counterexample: distinctness of ids does not hold after
`loadTasksFromFile` from arbitrary storage contents.  The file
`1|A|0\n1|B|0\n` loads two records that both carry id 1. -/
theorem duplicate_ids_counterexample :
    loadTasksFromFile [] 1
        (some ['1', '|', 'A', '|', '0', '\n', '1', '|', 'B', '|', '0', '\n']) =
      some ([⟨1, ['A'], false⟩, ⟨1, ['B'], false⟩], 3) ∧
    ¬ (idsOf [⟨1, ['A'], false⟩, ⟨1, ['B'], false⟩]).Nodup := by
  constructor
  · decide
  · decide

/-- Claim C9 (amended): if the records loaded at startup carry pairwise
distinct ids (as any storage written by `saveTasksToFile` from a
distinct-id store does), then the ids remain pairwise distinct after
every subsequent sequence of `addTask`, `toggleTaskComplete`,
`deleteTask` and `editTask` operations. -/
theorem distinct_ids_amended (contents : Str) (ts : List Task) (n : Int)
    (hload : loadTasksFromFile [] 1 (some contents) = some (ts, n))
    (hnd : (idsOf ts).Nodup) (ops : List Op) :
    (idsOf (applyOps (ts, n) ops).1).Nodup := by
  have hload2 : loadLines ([], 1) (linesOf contents) = some (ts, n) := hload
  have hb : ∀ t ∈ ts, t.id < n :=
    loadLines_bound (linesOf contents) ([], 1) (ts, n) hload2
      (fun t ht => absurd ht (List.not_mem_nil t))
  exact (storeInv_applyOps ⟨hnd, hb⟩ ops).1

theorem distinct_ids_amended_witness :
    (loadTasksFromFile [] 1 (some ['1', '|', 'A', '|', '0', '\n']) =
        some ([⟨1, ['A'], false⟩], 2) ∧
      (idsOf [⟨1, ['A'], false⟩]).Nodup) ∧
    (idsOf (applyOps ([⟨1, ['A'], false⟩], 2)
        [Op.create ['B'], Op.toggle 1, Op.remove 1, Op.edit 2 ['C']]).1).Nodup :=
  ⟨⟨by decide, by decide⟩,
    distinct_ids_amended ['1', '|', 'A', '|', '0', '\n'] [⟨1, ['A'], false⟩] 2
      (by decide) (by decide)
      [Op.create ['B'], Op.toggle 1, Op.remove 1, Op.edit 2 ['C']]⟩

/-- Claim C10, counterexample: "completed is true exactly when the third
field is the literal 1" fails as stated.  The line `1|A|1|x` splits into
four `'|'`-separated fields whose third is `1`, yet the loaded record
has `completed = false`: the code compares the whole remainder `1|x`
after the second delimiter against `"1"`. -/
theorem third_field_counterexample :
    loadTasksFromFile [] 1 (some ['1', '|', 'A', '|', '1', '|', 'x']) =
      some ([⟨1, ['A'], false⟩], 2) := by
  decide

/-- Claim C10 (amended): on a line of the shape `a|b|c` where `a` and `b`
are `'|'`-free and `c` is the nonempty remainder of the line (which may
itself contain further `'|'` characters), a record is loaded whose
completed flag is true exactly when the whole remainder `c` equals the
literal `1`; a line of the shape `a|b` or `a|b|` with nothing after the
second delimiter, or a line with no delimiter at all, is silently
skipped. -/
theorem load_line_semantics (tasks : List Task) (n : Int) (a b c : Str) (i : Int)
    (ha : '|' ∉ a) (hb : '|' ∉ b) (hc : '\n' ∉ c) (hcne : c ≠ [])
    (hi : stoi a = some i) :
    loadLine (tasks, n) (a ++ '|' :: (b ++ '|' :: c)) =
      some (tasks ++ [⟨i, b, c == ['1']⟩], if i ≥ n + 1 then i + 1 else n + 1) ∧
    loadLine (tasks, n) (a ++ '|' :: b) = some (tasks, n) ∧
    loadLine (tasks, n) (a ++ '|' :: (b ++ ['|'])) = some (tasks, n) ∧
    loadLine (tasks, n) a = some (tasks, n) :=
  ⟨loadLine_fields ha hb hc hcne hi,
    loadLine_skip (parseTaskLine_two_fields ha hb),
    loadLine_skip (parseTaskLine_trailing_bar ha hb),
    loadLine_skip (parseTaskLine_no_bar ha)⟩

theorem load_line_semantics_witness :
    ('|' ∉ (['1'] : Str) ∧ '|' ∉ (['A'] : Str) ∧ '\n' ∉ (['1', '|', 'x'] : Str) ∧
      (['1', '|', 'x'] : Str) ≠ [] ∧ stoi ['1'] = some 1) ∧
    (loadLine ([], 1) (['1'] ++ '|' :: (['A'] ++ '|' :: ['1', '|', 'x'])) =
        some ([] ++ [⟨1, ['A'], ['1', '|', 'x'] == ['1']⟩],
          if (1 : Int) ≥ 1 + 1 then 1 + 1 else 1 + 1) ∧
      loadLine ([], 1) (['1'] ++ '|' :: ['A']) = some ([], 1) ∧
      loadLine ([], 1) (['1'] ++ '|' :: (['A'] ++ ['|'])) = some ([], 1) ∧
      loadLine ([], 1) ['1'] = some ([], 1)) :=
  ⟨⟨by decide, by decide, by decide, by decide, by decide⟩,
    load_line_semantics [] 1 ['1'] ['A'] ['1', '|', 'x'] 1
      (by decide) (by decide) (by decide) (by decide) (by decide)⟩

end CPPCLITODO
